import Mathlib

/-
Verification development for `cmake/generate_cmake_build.py`, a build-descriptor
generator: given a library name and source directory it walks the directory
tree, classifies `.cc`/`.hh` files, detects API-declaring files, reads a link
dependency file, and emits cmake descriptor text.

Text is modeled as `List Char`, with Python's full `str.splitlines` boundary
set (`\n`, `\r`, `\r\n`, `\v`, `\f`, the ASCII separators `\x1c`-`\x1e`,
`\x85`, and the Unicode line/paragraph separators).  The filesystem is modeled
as a tree of named entries, and
each fatal `assert` of the script is modeled by an `Option` result (`none` =
the process aborts).
-/

namespace GenerateCmakeBuild

abbrev Str := List Char

/-- Coerce a string literal into the character-list representation. -/
def str (s : String) : Str := s.data

/-- Python's `s.endswith(suf)`. -/
def endswith (s suf : Str) : Bool := List.isSuffixOf suf s

/-- Python's `s.find(pat) != -1`: does `s` contain `pat` as a contiguous substring? -/
def contains_substr : Str → Str → Bool
  | [], pat => pat.isEmpty
  | c :: rest, pat => List.isPrefixOf pat (c :: rest) || contains_substr rest pat

/-- Python's `s.split(sep)` for a single-character separator: always returns at
least one (possibly empty) part, with empty parts kept. -/
def splitOnChar (sep : Char) : Str → List Str
  | [] => [[]]
  | c :: rest =>
    if c = sep then [] :: splitOnChar sep rest
    else match splitOnChar sep rest with
      | [] => [[c]]
      | l :: ls => (c :: l) :: ls

/-- The six ASCII whitespace characters recognized by Python's `str.split()`. -/
def py_isspace (c : Char) : Bool :=
  c = ' ' || c = '\t' || c = '\n' || c = '\r' || c = '\x0b' || c = '\x0c'

/-- Worker for `py_split`: `cur` is the (reversed) token being accumulated. -/
def py_split_aux (cur : Str) : Str → List Str
  | [] => if cur.isEmpty then [] else [cur.reverse]
  | c :: rest =>
    if py_isspace c then
      if cur.isEmpty then py_split_aux [] rest
      else cur.reverse :: py_split_aux [] rest
    else py_split_aux (c :: cur) rest

/-- Python's `s.split()` (no argument): split on whitespace runs, dropping
empty tokens. -/
def py_split (s : Str) : List Str := py_split_aux [] s

/-- The line-boundary characters of Python's `str.splitlines`: `\n`, `\r`,
`\v`, `\f`, the ASCII file/group/record separators, `\x85`, and the Unicode
line and paragraph separators. -/
def py_linebreak (c : Char) : Bool :=
  c = '\n' || c = '\r' || c = '\x0b' || c = '\x0c' ||
  c = '\x1c' || c = '\x1d' || c = '\x1e' || c = '\x85' ||
  c = '\u2028' || c = '\u2029'

/-- First half of Python's `str.splitlines`: scanning left to right, a `\r`
immediately followed by `\n` counts as a single line boundary, so the pair is
fused into one `\n` before splitting. -/
def fuse_crlf : Str → Str
  | [] => []
  | [c] => [c]
  | c :: d :: rest =>
    if c = '\r' ∧ d = '\n' then '\n' :: fuse_crlf rest
    else c :: fuse_crlf (d :: rest)

/-- Second half of Python's `str.splitlines`: split at every line-boundary
character; a trailing boundary does not produce a final empty line. -/
def splitBreaks : Str → List Str
  | [] => []
  | c :: rest =>
    if py_linebreak c then [] :: splitBreaks rest
    else match splitBreaks rest with
      | [] => [[c]]
      | l :: ls => (c :: l) :: ls

/-- Python's `s.splitlines()`: fuse `\r\n` pairs, then split at each remaining
line-boundary character. -/
def py_splitlines (s : Str) : List Str := splitBreaks (fuse_crlf s)

/-- One line of the first pass of `purge_comments`: keep the prefix of the line
before the first `//` (Python's `line[0:line.find("//")]`, or the whole line
when there is no `//`). -/
def strip_line_comment : Str → Str
  | [] => []
  | c :: rest =>
    if c = '/' ∧ rest.head? = some '/' then []
    else c :: strip_line_comment rest

/-- First pass of `purge_comments`: for each line of the input, emit the part
before any `//` marker followed by a newline (a newline is re-appended to every
line, including an unterminated final line). -/
def purge_line_comments (s : Str) : Str :=
  List.flatten ((py_splitlines s).map (fun line => strip_line_comment line ++ ['\n']))

mutual
/-- Second pass of `purge_comments` while `recording == True`: copy characters
until a `/*` opener starts a block comment. -/
def purge_block_comments : Str → Str
  | [] => []
  | [c] => [c]
  | c :: d :: rest =>
    if c = '/' ∧ d = '*' then purge_block_skip '*' rest
    else c :: purge_block_comments (d :: rest)

/-- Second pass of `purge_comments` while `recording == False`: drop characters
until the two-character window `prev, c` equals `*/` (mirroring the index loop
of the source, which resumes right after the closing slash; an unterminated
block comment consumes the rest of the text). -/
def purge_block_skip (prev : Char) : Str → Str
  | [] => []
  | c :: rest =>
    if prev = '*' ∧ c = '/' then purge_block_comments rest
    else purge_block_skip c rest
end

/-- `purge_comments` of the source: strip `//` line comments line by line
(re-inserting the newline), then strip `/*...*/` block comments from the
rejoined text. -/
def purge_comments (file_contents : Str) : Str :=
  purge_block_comments (purge_line_comments file_contents)

/-- No two adjacent characters `a, b` occur in the text: the decidable form of
"the two-character marker `ab` does not occur as a substring". -/
def no_adj (a b : Char) : Str → Bool
  | x :: y :: rest => if x = a ∧ y = b then false else no_adj a b (y :: rest)
  | _ => true

/-- `has_api_definition` of the source: the file (of name `filename`, whose
text is `file_contents`) declares an API iff the raw text contains
`<base>::get_api_definition` and the text with comments purged and whitespace
runs collapsed to single spaces still contains it. -/
def has_api_definition (filename : Str) (file_contents : Str) : Bool :=
  let filename_base := (splitOnChar '.' filename).headD []
  if contains_substr file_contents (filename_base ++ str "::" ++ str "get_api_definition") = false then
    false
  else
    let collapsed := List.intercalate [' '] (py_split (purge_comments file_contents))
    if contains_substr collapsed (filename_base ++ str "::" ++ str "get_api_definition") = false then
      false
    else
      true

/-- One iteration of the segment loop of `apiname_from_filename`: segment 0 is
copied, segment 2 becomes `/<seg>_api/auto_generated_api`, the last segment is
asserted to split on `.` into exactly two parts (`none` models the assertion
failing) and becomes `/<base>_API`, any other segment is copied after a `/`. -/
def apiname_entry (n i : Nat) (entry : Str) : Option Str :=
  if i = 0 then some entry
  else if i = 2 then some ('/' :: (entry ++ str "_api/auto_generated_api"))
  else if i = n - 1 then
    let entrysplit := splitOnChar '.' entry
    if entrysplit.length = 2 then some ('/' :: (entrysplit.headD [] ++ str "_API"))
    else none
  else some ('/' :: entry)

/-- The segment loop of `apiname_from_filename`, accumulating the rewritten
segments in order starting from index `i`. -/
def apiname_loop (n : Nat) (i : Nat) : List Str → Option Str
  | [] => some []
  | entry :: rest =>
    match apiname_entry n i entry, apiname_loop n (i + 1) rest with
    | some piece, some restname => some (piece ++ restname)
    | _, _ => none

/-- `apiname_from_filename` of the source: from a slash-separated path, build
the extensionless name of the corresponding auto-generated API file.  `none`
models a fatal `assert` (at most three segments, or a final segment that does
not split on `.` into exactly two parts). -/
def apiname_from_filename (fname : Str) : Option Str :=
  let fname_entries := splitOnChar '/' fname
  if fname_entries.length > 3 then apiname_loop fname_entries.length 0 fname_entries
  else none

/-- The transformation the spec's Path-to-API-Name rule applies to segment
`i` of a path of `n` segments: segment 2 gains `_api/auto_generated_api`, the
final segment is replaced by its extension-stripped base name with `_API`
appended, every other segment is copied as-is. -/
def mapper_spec_entry (n i : Nat) (entry : Str) : Str :=
  if i = 2 then entry ++ str "_api/auto_generated_api"
  else if i = n - 1 then (splitOnChar '.' entry).headD [] ++ str "_API"
  else entry

/-- The spec's Path-to-API-Name rule: transform each segment by position and
rejoin with the path separator. -/
def mapper_spec (segs : List Str) : Str :=
  List.intercalate ['/']
    ((List.range segs.length).map (fun i => mapper_spec_entry segs.length i (segs.getD i [])))

mutual
/-- A filesystem entry: a plain file with contents, or a directory. -/
inductive FSEntry where
  | file (name : Str) (contents : Str)
  | dir (name : Str) (entries : FSList)
/-- A directory listing, in `listdir` order. -/
inductive FSList where
  | nil
  | cons (e : FSEntry) (rest : FSList)
end

/-- The directory-name exclusion test of
`get_all_cc_and_hh_files_in_dir_and_subdirs`: with `skip_apps` set, skip a
directory whose name ends in `<libname>_apps` (or the trailing-slash variant);
with it unset, skip one whose name ends in `<libname>/auto_generated_api`. -/
def excluded_dir (libname dirname : Str) (skip_apps : Bool) : Bool :=
  if skip_apps then
    endswith dirname (libname ++ str "_apps") || endswith dirname (libname ++ str "_apps/")
  else
    endswith dirname (libname ++ str "/auto_generated_api") ||
      endswith dirname (libname ++ str "/auto_generated_api/")

mutual
/-- The body of the `listdir` loop of
`get_all_cc_and_hh_files_in_dir_and_subdirs` for a single entry, returning the
(primary files, API counterpart names) contribution of that entry.  A file is
collected when its name ends in `.cc` or `.hh`; with `skip_apps` set, a `.cc`
file other than `../src/base/MasalaObject.cc` accepted by `has_api_definition`
additionally contributes its three API counterpart names (`none` propagates
the fatal assert of `apiname_from_filename`).  A subdirectory is re-entered
with the extended directory name unless the exclusion test fires, in which
case it contributes nothing (the early `return` of the source).  When
`skip_apps` is unset the source returns a single list; that mode is modeled by
the second component always being empty. -/
def walk_entry (libname : Str) (skip_apps : Bool) (dirname : Str) :
    FSEntry → Option (List Str × List Str)
  | FSEntry.file fname contents =>
    let concatname := dirname ++ '/' :: fname
    let outlist :=
      if endswith fname (str ".cc") || endswith fname (str ".hh") then [concatname] else []
    if skip_apps = true ∧ endswith fname (str ".cc") = true ∧
        concatname ≠ str "../src/base/MasalaObject.cc" ∧
        has_api_definition fname contents = true then
      match apiname_from_filename concatname with
      | some apiname =>
        some (outlist, [apiname ++ str ".cc", apiname ++ str ".hh", apiname ++ str ".fwd.hh"])
      | none => none
    else
      some (outlist, [])
  | FSEntry.dir dname sub =>
    let subdirname := dirname ++ '/' :: dname
    if excluded_dir libname subdirname skip_apps then some ([], [])
    else walk_entries libname skip_apps subdirname sub

/-- The `listdir` loop of `get_all_cc_and_hh_files_in_dir_and_subdirs`,
concatenating the contributions of the entries in listing order. -/
def walk_entries (libname : Str) (skip_apps : Bool) (dirname : Str) :
    FSList → Option (List Str × List Str)
  | FSList.nil => some ([], [])
  | FSList.cons e rest =>
    match walk_entry libname skip_apps dirname e,
          walk_entries libname skip_apps dirname rest with
    | some (o1, a1), some (o2, a2) => some (o1 ++ o2, a1 ++ a2)
    | _, _ => none
end

/-- `get_all_cc_and_hh_files_in_dir_and_subdirs` of the source, on the listing
`entries` of the directory named `dirname` (the `assert path.isdir` is handled
by the callers, which pass `none` for a missing directory).  Returns `none`
when a fatal assert fires during the walk. -/
def get_all_cc_and_hh_files_in_dir_and_subdirs (libname dirname : Str) (skip_apps : Bool)
    (entries : FSList) : Option (List Str × List Str) :=
  if excluded_dir libname dirname skip_apps then some ([], [])
  else walk_entries libname skip_apps dirname entries

/-- The `for entry in dlist: if entry[0] == "#": dlist.remove(entry)` loop of
`get_library_dependencies`, modeled exactly as Python executes it: Python's
`list.remove` is `List.erase` (drop the first equal element), and the loop
index `i` advances every iteration even when the list just shrank, so the
element that slides into the freed position is never examined. -/
def remove_comment_entries (i : Nat) (dlist : List Str) : List Str :=
  if h : i < dlist.length then
    let entry := dlist.get ⟨i, h⟩
    if entry.headD ' ' = '#' then
      remove_comment_entries (i + 1) (dlist.erase entry)
    else
      remove_comment_entries (i + 1) dlist
  else dlist
termination_by dlist.length - i
decreasing_by
  · have := (List.erase_sublist (dlist.get ⟨i, h⟩) dlist).length_le
    omega
  · omega

/-- Look up a plain file by name in a directory listing (`path.isfile` on a
direct child). -/
def find_file (fname : Str) : FSList → Option Str
  | FSList.nil => none
  | FSList.cons (FSEntry.file n c) rest => if n = fname then some c else find_file fname rest
  | FSList.cons (FSEntry.dir _ _) rest => find_file fname rest

/-- Look up a subdirectory by name in a directory listing (`path.isdir` on a
direct child). -/
def find_dir (dname : Str) : FSList → Option FSList
  | FSList.nil => none
  | FSList.cons (FSEntry.file _ _) rest => find_dir dname rest
  | FSList.cons (FSEntry.dir n sub) rest => if n = dname then some sub else find_dir dname rest

/-- `get_library_dependencies` of the source, on the listing of the library's
source directory: read `link_dependencies.txt` if present, split it on
whitespace, and run the comment-removal loop; an absent file yields `[]`. -/
def get_library_dependencies (dir_entries : FSList) : List Str :=
  match find_file (str "link_dependencies.txt") dir_entries with
  | some contents => remove_comment_entries 0 (py_split contents)
  | none => []

/-- The five positional invocation values (`argv[1]`..`argv[5]`), before the
`"NONE"` sentinel is interpreted. -/
structure Config where
  lib_name : Str
  source_dir : Str
  output_file : Str
  output_file_api : Str
  output_file_tests : Str

/-- The parts of the filesystem the script consults: the listing of
`<source dir>`, of its sibling `<source dir>_api`, and of
`../tests/unit/<library>`; `none` models a missing directory. -/
structure World where
  source_tree : Option FSList
  api_tree : Option FSList
  tests_tree : Option FSList

/-- The descriptor text written to the library cmake file (module lines
194-215 of the source): the `ADD_LIBRARY` block when there are library
sources, then one `ADD_EXECUTABLE` block per discovered application file. -/
def library_descriptor (lib_name : Str) (depend_list cclist appslist : List Str) : Str :=
  (if cclist.length > 0 then
    str "ADD_LIBRARY(" ++ lib_name ++ str " SHARED"
    ++ List.flatten (cclist.map (fun entry => str "\n\t" ++ entry))
    ++ str "\n)\n"
    ++ str "SET_TARGET_PROPERTIES(" ++ lib_name
    ++ str " PROPERTIES VERSION $\x7bPROJECT_VERSION\x7d)\n"
    ++ (if depend_list.length > 0 then
         str "TARGET_LINK_LIBRARIES(" ++ lib_name
         ++ List.flatten (depend_list.map (fun dentry => str "\n\tPUBLIC " ++ dentry))
         ++ str "\n\tPRIVATE Threads::Threads"
         ++ str "\n)\n"
       else [])
  else [])
  ++ (if appslist.length > 0 then
       List.flatten (appslist.map (fun app =>
         let appname := (splitOnChar '.' ((splitOnChar '/' app).getLastD [])).headD []
         str "\nADD_EXECUTABLE( " ++ appname ++ str " " ++ app ++ str ")\n"
         ++ str "TARGET_LINK_LIBRARIES(" ++ appname
         ++ List.flatten (depend_list.map (fun dentry => str "\n\tPUBLIC " ++ dentry))
         ++ str "\n\tPRIVATE Threads::Threads"
         ++ str "\n\tPUBLIC " ++ lib_name ++ str "\n)\n"))
     else [])

/-- The descriptor text written to the API cmake file (module lines 217-241):
the custom command generating the API sources, the API library block, and its
link block. -/
def api_descriptor (lib_name : Str) (depend_list api_cclist : List Str) : Str :=
  str "ADD_CUSTOM_COMMAND(\n"
  ++ str "\tDEPENDS generate_" ++ lib_name ++ str "_api POST_BUILD\n"
  ++ str "\tOUTPUT\n"
  ++ List.flatten (api_cclist.map (fun entry => str "\t\t" ++ entry ++ str "\n"))
  ++ str "\tCOMMAND echo \"Generating JSON description of core API.\"\n"
  ++ str "\tCOMMAND ./generate_" ++ lib_name ++ str "_api\n"
  ++ str "\tCOMMAND echo \"Auto-generating core API C++ code.\"\n"
  ++ str "\tCOMMAND sh -c \"cd .. && python3 code_templates/generate_library_api.py core build/core_api.json && cd build\"\n"
  ++ str "\tVERBATIM\n)\n\n"
  ++ str "ADD_LIBRARY(" ++ lib_name ++ str "_api SHARED"
  ++ List.flatten (api_cclist.map (fun entry => str "\n\t" ++ entry))
  ++ str "\n)\n"
  ++ str "SET_TARGET_PROPERTIES(" ++ lib_name
  ++ str "_api PROPERTIES VERSION $\x7bPROJECT_VERSION\x7d)\n"
  ++ str "TARGET_LINK_LIBRARIES(" ++ lib_name ++ str "_api"
  ++ str "\n\tPUBLIC " ++ lib_name
  ++ (if depend_list.length > 0 then
       List.flatten (depend_list.map (fun dentry => str "\n\tPUBLIC " ++ dentry))
     else [])
  ++ str "\n\tPRIVATE Threads::Threads"
  ++ str "\n)\n"

/-- The descriptor text written to the test cmake file (module lines 244-259). -/
def tests_descriptor (lib_name testlibname : Str) (depend_list testslist : List Str) : Str :=
  str "ADD_EXECUTABLE(" ++ testlibname ++ str " "
  ++ List.flatten (testslist.map (fun entry => str "\n\t" ++ entry))
  ++ str "\n)\n"
  ++ str "SET_TARGET_PROPERTIES(" ++ testlibname
  ++ str " PROPERTIES VERSION $\x7bPROJECT_VERSION\x7d)\n"
  ++ str "TARGET_LINK_LIBRARIES(" ++ testlibname
  ++ str "\n\tPUBLIC " ++ lib_name
  ++ List.flatten (depend_list.map (fun dentry => str "\n\tPUBLIC " ++ dentry))
  ++ str "\n\tPRIVATE Threads::Threads"
  ++ str "\n)\n"

/-- The write phase of the script (module lines 194-259) as the ordered list of
`(path, contents)` pairs it produces: the library cmake file is opened (and
hence created) unconditionally; the API cmake file is written only when API
sources were found and the API output path was not suppressed; the test cmake
file is written only when test sources were found — in which case the source
asserts that the test output path was not suppressed (`none` models that
assert failing). -/
def emit (lib_name : Str) (depend_list cclist api_cclist appslist testslist : List Str)
    (output_file : Str) (output_file_api output_file_tests : Option Str) (testlibname : Str) :
    Option (List (Str × Str)) :=
  let lib_write := (output_file, library_descriptor lib_name depend_list cclist appslist)
  let api_writes :=
    if api_cclist.length > 0 then
      match output_file_api with
      | some p => [(p, api_descriptor lib_name depend_list api_cclist)]
      | none => []
    else []
  if testslist.length > 0 then
    match output_file_tests with
    | none => none
    | some p =>
      some (lib_write :: api_writes ++ [(p, tests_descriptor lib_name testlibname depend_list testslist)])
  else
    some (lib_write :: api_writes)

/-- The paths the amended C9 says a successful emission writes: always the
library-descriptor path; the API-descriptor path iff API sources were found
and that output was not suppressed; the test-descriptor path iff test sources
were found. -/
def expected_written_paths (api_cclist testslist : List Str) (output_file : Str)
    (output_file_api output_file_tests : Option Str) : List Str :=
  output_file ::
    ((if api_cclist.length > 0 then output_file_api.toList else []) ++
     (if testslist.length > 0 then output_file_tests.toList else []))

/-- The module-level body of the script after argument parsing: walk the
library tree with API partitioning, unconditionally walk the sibling
`<source dir>_api` tree (library name `<library>_api`, partitioning disabled)
to extend the API list, read the link dependencies, walk `<library>_apps` if
present and `../tests/unit/<library>` if tests were requested, then emit the
descriptor files.  `none` models any fatal assert (missing directory or
malformed path) aborting the process. -/
def run_generate (cfg : Config) (w : World) : Option (List (Str × Str)) :=
  match w.source_tree with
  | none => none
  | some src_entries =>
    match get_all_cc_and_hh_files_in_dir_and_subdirs cfg.lib_name cfg.source_dir true src_entries with
    | none => none
    | some (cclist, api_cclist0) =>
      match w.api_tree with
      | none => none
      | some api_entries =>
        match get_all_cc_and_hh_files_in_dir_and_subdirs (cfg.lib_name ++ str "_api")
            (cfg.source_dir ++ str "_api") false api_entries with
        | none => none
        | some (api_more, _) =>
          let api_cclist := api_cclist0 ++ api_more
          let depend_list := get_library_dependencies src_entries
          let appsdir := cfg.source_dir ++ str "/" ++ cfg.lib_name ++ str "_apps"
          let appsres :=
            match find_dir (cfg.lib_name ++ str "_apps") src_entries with
            | some apps_entries =>
              match get_all_cc_and_hh_files_in_dir_and_subdirs cfg.lib_name appsdir false apps_entries with
              | some (l, _) => some l
              | none => none
            | none => some []
          match appsres with
          | none => none
          | some appslist =>
            let testlibname := cfg.lib_name ++ str "_tests"
            let output_file_api :=
              if cfg.output_file_api = str "NONE" then none else some cfg.output_file_api
            let output_file_tests :=
              if cfg.output_file_tests = str "NONE" then none else some cfg.output_file_tests
            let testsres :=
              match output_file_tests with
              | some _ =>
                match w.tests_tree with
                | none => none
                | some tests_entries =>
                  match get_all_cc_and_hh_files_in_dir_and_subdirs testlibname
                      (str "../tests/unit/" ++ cfg.lib_name) false tests_entries with
                  | some (l, _) => some l
                  | none => none
              | none => some []
            match testsres with
            | none => none
            | some testslist =>
              emit cfg.lib_name depend_list cclist api_cclist appslist testslist
                cfg.output_file output_file_api output_file_tests testlibname

/-- The whole script: `assert len(argv) == 6` (the program name plus exactly
five positional values), then run the generator. -/
def run_main (argv : List Str) (w : World) : Option (List (Str × Str)) :=
  if argv.length = 6 then
    run_generate
      { lib_name := argv.getD 1 [], source_dir := argv.getD 2 [], output_file := argv.getD 3 [],
        output_file_api := argv.getD 4 [], output_file_tests := argv.getD 5 [] } w
  else none

end GenerateCmakeBuild

namespace GenerateCmakeBuild

/-- C1: the API Declaration Detector returns true iff the raw text contains
`<base>::get_api_definition` (with `<base>` the file name's part before the
first `.`) and the substring is still present after stripping comments and
collapsing every whitespace run to a single space. -/
theorem has_api_definition_iff_raw_and_purged (filename file_contents : Str) :
    has_api_definition filename file_contents = true ↔
      (contains_substr file_contents
          ((splitOnChar '.' filename).headD [] ++ str "::" ++ str "get_api_definition") = true ∧
       contains_substr
          (List.intercalate [' '] (py_split (purge_comments file_contents)))
          ((splitOnChar '.' filename).headD [] ++ str "::" ++ str "get_api_definition") = true) := by
  simp only [has_api_definition]
  by_cases h1 : contains_substr file_contents
      ((splitOnChar '.' filename).headD [] ++ str "::" ++ str "get_api_definition") = false <;>
    by_cases h2 : contains_substr
        (List.intercalate [' '] (py_split (purge_comments file_contents)))
        ((splitOnChar '.' filename).headD [] ++ str "::" ++ str "get_api_definition") = false <;>
    simp_all

/-- C3: the Directory Walker skips a directory entirely — returning empty
primary and API lists — whenever the directory name string ends with
`<library>_apps` (or the trailing-slash variant) and the partitioning flag is
set, and whenever it ends with `<library>/auto_generated_api` (or the
trailing-slash variant) and the flag is unset; both are pure string-suffix
tests on the directory name. -/
theorem get_all_files_skips_excluded_dirs (libname dirname : Str) (entries : FSList) :
    ((endswith dirname (libname ++ str "_apps") = true ∨
      endswith dirname (libname ++ str "_apps/") = true) →
      get_all_cc_and_hh_files_in_dir_and_subdirs libname dirname true entries = some ([], [])) ∧
    ((endswith dirname (libname ++ str "/auto_generated_api") = true ∨
      endswith dirname (libname ++ str "/auto_generated_api/") = true) →
      get_all_cc_and_hh_files_in_dir_and_subdirs libname dirname false entries = some ([], [])) := by
  constructor
  · intro h
    have hex : excluded_dir libname dirname true = true := by
      rcases h with h | h <;> simp [excluded_dir, h]
    simp [get_all_cc_and_hh_files_in_dir_and_subdirs, hex]
  · intro h
    have hex : excluded_dir libname dirname false = true := by
      rcases h with h | h <;> simp [excluded_dir, h]
    simp [get_all_cc_and_hh_files_in_dir_and_subdirs, hex]

/-- Witness for C3 at concrete inputs: with library `core` and the flag set,
the directory `x/mycore_apps` (a suffix match, not a path-component match) is
skipped; with the flag unset, `x/core/auto_generated_api` is skipped; and a
walk of a tree whose `core_apps` subdirectory holds `b.cc` excludes that file
from both lists. -/
theorem get_all_files_skips_excluded_dirs_witness :
    get_all_cc_and_hh_files_in_dir_and_subdirs (str "core") (str "x/mycore_apps") true
      (FSList.cons (FSEntry.file (str "b.cc") (str "")) FSList.nil) = some ([], []) ∧
    get_all_cc_and_hh_files_in_dir_and_subdirs (str "core") (str "x/core/auto_generated_api") false
      (FSList.cons (FSEntry.file (str "b.cc") (str "")) FSList.nil) = some ([], []) ∧
    get_all_cc_and_hh_files_in_dir_and_subdirs (str "core") (str "x") true
      (FSList.cons (FSEntry.file (str "a.cc") (str ""))
        (FSList.cons (FSEntry.dir (str "core_apps")
          (FSList.cons (FSEntry.file (str "b.cc") (str "")) FSList.nil)) FSList.nil))
      = some ([str "x/a.cc"], []) :=
  ⟨(get_all_files_skips_excluded_dirs (str "core") (str "x/mycore_apps") _).1 (Or.inl (by decide)),
   (get_all_files_skips_excluded_dirs (str "core") (str "x/core/auto_generated_api") _).2
     (Or.inl (by decide)),
   by decide⟩

/-- C10: every invocation walks the sibling `<source dir>_api` directory
unconditionally, so whenever that directory is missing the whole run aborts
fatally, regardless of every other argument, of whether any API-bearing file
exists, and of whether the API output was suppressed. -/
theorem run_generate_aborts_without_api_dir (cfg : Config) (w : World)
    (h : w.api_tree = none) : run_generate cfg w = none := by
  cases hs : w.source_tree with
  | none => unfold run_generate; rw [hs]
  | some src_entries =>
    unfold run_generate
    rw [hs]
    dsimp only
    cases hw : get_all_cc_and_hh_files_in_dir_and_subdirs cfg.lib_name cfg.source_dir true src_entries with
    | none => rfl
    | some p =>
      cases p with
      | mk cclist api0 =>
        dsimp only
        rw [h]

/-- Witness for C10: a world whose library tree exists (holding one
API-less source file) but whose `_api` sibling directory is missing makes the
run abort, even though the API output was suppressed. -/
theorem run_generate_aborts_without_api_dir_witness :
    run_generate
      { lib_name := str "core", source_dir := str "src", output_file := str "lib.cmake",
        output_file_api := str "NONE", output_file_tests := str "NONE" }
      { source_tree := some (FSList.cons (FSEntry.file (str "a.cc") (str "int x;")) FSList.nil),
        api_tree := none, tests_tree := none } = none :=
  run_generate_aborts_without_api_dir _ _ rfl

/-- C6: the Dependency Reader does not drop every `#`-token: on the content
`#a #b x` the mutate-while-iterating loop removes `#a`, skips over `#b` (which
slides into the freed index), and returns `[#b, x]`, so a comment token
survives; on a missing `link_dependencies.txt` it does return the empty list. -/
theorem get_library_dependencies_adjacent_comment_tokens :
    get_library_dependencies
        (FSList.cons (FSEntry.file (str "link_dependencies.txt") (str "#a #b x")) FSList.nil)
      = [str "#b", str "x"] ∧
    get_library_dependencies FSList.nil = [] := by
  constructor
  · simp [get_library_dependencies, find_file, py_split, py_split_aux, py_isspace,
      remove_comment_entries, List.erase_cons, str]
  · decide

/-- C7: on the dependency-file content `# comment\nlibA libB` the reader
returns `[comment, libA, libB]`, not `[libA, libB]`: the content splits into
the four tokens `#`, `comment`, `libA`, `libB`, and removing `#` while
iterating makes the loop skip `comment`, which is kept. -/
theorem get_library_dependencies_comment_line_eval :
    get_library_dependencies
        (FSList.cons (FSEntry.file (str "link_dependencies.txt") (str "# comment\nlibA libB")) FSList.nil)
      = [str "comment", str "libA", str "libB"] := by
  simp [get_library_dependencies, find_file, py_split, py_split_aux, py_isspace,
    remove_comment_entries, List.erase_cons, str]

/-- C9 counterexample: a run over an empty library tree (empty collected
source list) still writes a file — with empty contents — at the
library-descriptor output path, because the source opens that output
unconditionally. -/
theorem run_generate_writes_library_file_when_empty :
    run_generate
      { lib_name := str "core", source_dir := str "src", output_file := str "lib.cmake",
        output_file_api := str "NONE", output_file_tests := str "NONE" }
      { source_tree := some FSList.nil, api_tree := some FSList.nil, tests_tree := none }
      = some [(str "lib.cmake", [])] ∧
    (str "lib.cmake") ∈ [str "lib.cmake"] := by
  constructor
  · decide
  · decide

/-- C9 as amended: the API descriptor is written iff API sources were found
and its output path was not suppressed, and the test descriptor is written iff
test sources were found; the library descriptor file, however, is always
opened and hence written (possibly with empty contents).  The paths written by
a successful emission are exactly `expected_written_paths`. -/
theorem emit_written_paths (lib_name : Str)
    (depend_list cclist api_cclist appslist testslist : List Str)
    (output_file : Str) (output_file_api output_file_tests : Option Str) (testlibname : Str)
    (writes : List (Str × Str))
    (h : emit lib_name depend_list cclist api_cclist appslist testslist output_file
          output_file_api output_file_tests testlibname = some writes) :
    writes.map Prod.fst =
      expected_written_paths api_cclist testslist output_file output_file_api output_file_tests := by
  unfold emit at h
  by_cases ht : testslist.length > 0
  · cases hout : output_file_tests with
    | none => rw [hout] at h; simp [ht] at h
    | some p =>
      rw [hout] at h
      simp only [if_pos ht] at h
      injection h with h'
      subst h'
      by_cases ha : api_cclist.length > 0
      · cases houta : output_file_api <;>
          simp [expected_written_paths, ha, ht, houta, Option.toList]
      · simp [expected_written_paths, ha, ht, Option.toList]
  · simp only [if_neg ht] at h
    injection h with h'
    subst h'
    by_cases ha : api_cclist.length > 0
    · cases houta : output_file_api <;>
        simp [expected_written_paths, ha, ht, houta, Option.toList]
    · simp [expected_written_paths, ha, ht, Option.toList]

/-- Witness for C9's amended statement: emitting with an empty source list, an
empty API list, a suppressed API output and no test sources writes exactly one
file, at the library-descriptor path. -/
theorem emit_written_paths_witness :
    ([((str "lib.cmake"), ([] : Str))]).map Prod.fst
      = expected_written_paths [] [] (str "lib.cmake") none none :=
  emit_written_paths (str "core") [] [] [] [] [] (str "lib.cmake") none none
    (str "core_tests") [((str "lib.cmake"), ([] : Str))] (by decide)


theorem intercalate_cons_flatten (s y : Str) (ys : List Str) :
    List.intercalate s (y :: ys) = y ++ List.flatten (ys.map (fun z => s ++ z)) := by
  induction ys generalizing y with
  | nil => simp [List.intercalate, List.intersperse]
  | cons z zs ih =>
    have hz := ih z
    simp only [List.intercalate, List.intersperse] at hz ⊢
    simp [hz, List.append_assoc]

theorem getLastD_irrel (l : List Str) (d d' : Str) (h : l ≠ []) :
    l.getLastD d = l.getLastD d' := by
  cases l with
  | nil => exact absurd rfl h
  | cons a as =>
    cases as with
    | nil => rfl
    | cons b bs => rw [List.getLastD_cons d a, List.getLastD_cons d' a]

theorem getLastD_cons_of_ne_nil (e : Str) (l : List Str) (h : l ≠ []) :
    (e :: l).getLastD [] = l.getLastD [] := by
  rw [List.getLastD_cons ([] : Str) e]
  exact getLastD_irrel _ _ _ h

theorem apiname_entry_mid (n i : Nat) (e : Str) (h1 : 1 ≤ i) (h2 : i ≠ n - 1) :
    apiname_entry n i e = some ('/' :: mapper_spec_entry n i e) := by
  by_cases hi2 : i = 2
  · subst hi2
    simp [apiname_entry, mapper_spec_entry]
  · have hi0 : i ≠ 0 := by omega
    simp [apiname_entry, mapper_spec_entry, hi0, hi2, h2]

theorem apiname_loop_cons_some (n i : Nat) (entry piece restname : Str) (rest : List Str)
    (h1 : apiname_entry n i entry = some piece)
    (h2 : apiname_loop n (i + 1) rest = some restname) :
    apiname_loop n i (entry :: rest) = some (piece ++ restname) := by
  have heq : apiname_loop n i (entry :: rest) =
      (match apiname_entry n i entry, apiname_loop n (i + 1) rest with
        | some p, some r => some (p ++ r)
        | _, _ => none) := rfl
  rw [heq, h1, h2]

theorem apiname_loop_cons_none_iff (n i : Nat) (entry piece : Str) (rest : List Str)
    (h1 : apiname_entry n i entry = some piece) :
    (apiname_loop n i (entry :: rest) = none ↔ apiname_loop n (i + 1) rest = none) := by
  have heq : apiname_loop n i (entry :: rest) =
      (match apiname_entry n i entry, apiname_loop n (i + 1) rest with
        | some p, some r => some (p ++ r)
        | _, _ => none) := rfl
  rw [heq, h1]
  cases apiname_loop n (i + 1) rest <;> simp

theorem flatten_range_succ (m : Nat) (f : Nat → Str) :
    List.flatten ((List.range (m + 1)).map f) =
      f 0 ++ List.flatten ((List.range m).map (fun k => f (k + 1))) := by
  rw [List.range_succ_eq_map, List.map_cons, List.flatten_cons, List.map_map]
  congr 1

theorem apiname_loop_spec : ∀ (l : List Str) (i n : Nat), 1 ≤ i → 4 ≤ n →
    i + l.length = n → (splitOnChar '.' (l.getLastD [])).length = 2 →
    apiname_loop n i l =
      some (List.flatten ((List.range l.length).map
        (fun k => '/' :: mapper_spec_entry n (i + k) (l.getD k [])))) := by
  intro l
  induction l with
  | nil =>
    intro i n _ _ _ hext
    simp [splitOnChar] at hext
  | cons e rest ih =>
    intro i n h1 h4 hlen hext
    cases rest with
    | nil =>
      have hi : i = n - 1 := by simp only [List.length_cons, List.length_nil] at hlen; omega
      have hn1 : n - 1 ≠ 0 := by omega
      have hn3 : n ≠ 3 := by omega
      have hi2 : i ≠ 2 := by omega
      have hi0 : i ≠ 0 := by omega
      have hsplit : (splitOnChar '.' e).length = 2 := by
        simpa [List.getLastD] using hext
      simp [apiname_loop, apiname_entry, hi0, hi2, hi, hn1, hn3, hsplit, mapper_spec_entry,
        List.range_succ_eq_map]
    | cons f rest' =>
      have hne : i ≠ n - 1 := by simp only [List.length_cons] at hlen; omega
      have hmid := apiname_entry_mid n i e h1 hne
      have hlast : (e :: f :: rest').getLastD [] = (f :: rest').getLastD [] :=
        getLastD_cons_of_ne_nil e _ (by simp)
      have hrec := ih (i + 1) n (by omega) h4
        (by simp only [List.length_cons] at hlen ⊢; omega)
        (by rw [← hlast]; exact hext)
      have hshift : ∀ k : Nat, i + 1 + k = i + (k + 1) := by omega
      rw [apiname_loop_cons_some n i e ('/' :: mapper_spec_entry n i e) _ (f :: rest') hmid hrec]
      have hlen1 : (e :: f :: rest').length = (f :: rest').length + 1 := rfl
      rw [hlen1, flatten_range_succ]
      simp only [Nat.add_zero, List.getD_cons_zero]
      congr 2
      congr 1
      apply List.map_congr_left
      intro k _
      simp only [List.getD_cons_succ, hshift]

/-- C2: on every path with strictly more than three slash-separated segments
whose final segment contains exactly one `.`, the Path-to-API-Name Mapper
produces exactly the spec's rule: segment 0 as-is, segment 2 rewritten to
`<seg2>_api/auto_generated_api`, the final segment extension-stripped with
`_API` appended, all other segments as-is, rejoined with `/`. -/
theorem apiname_from_filename_follows_spec (fname : Str)
    (h3 : (splitOnChar '/' fname).length > 3)
    (hext : (splitOnChar '.' ((splitOnChar '/' fname).getLastD [])).length = 2) :
    apiname_from_filename fname = some (mapper_spec (splitOnChar '/' fname)) := by
  unfold apiname_from_filename mapper_spec
  rw [if_pos h3]
  cases hes : splitOnChar '/' fname with
  | nil => rw [hes] at h3; simp at h3
  | cons e0 rest =>
    rw [hes] at h3 hext
    have hrestne : rest ≠ [] := by
      intro hr
      rw [hr] at h3
      simp at h3
    have hlast : (e0 :: rest).getLastD [] = rest.getLastD [] :=
      getLastD_cons_of_ne_nil e0 rest hrestne
    have h4 : 4 ≤ (e0 :: rest).length := h3
    have hrec := apiname_loop_spec rest 1 (e0 :: rest).length (by omega) h4
      (by simp only [List.length_cons]; omega) (by rw [← hlast]; exact hext)
    have hzero : apiname_entry (e0 :: rest).length 0 e0 = some e0 := by
      simp [apiname_entry]
    have hmz : mapper_spec_entry (rest.length + 1) 0 e0 = e0 := by
      have hne : ¬((0 : Nat) = rest.length) := by
        cases rest with
        | nil => exact absurd rfl hrestne
        | cons a as => simp
      simp [mapper_spec_entry, hne]
    rw [apiname_loop_cons_some (e0 :: rest).length 0 e0 e0 _ rest hzero hrec]
    have hlen1 : (e0 :: rest).length = rest.length + 1 := rfl
    rw [hlen1, List.range_succ_eq_map, List.map_cons, intercalate_cons_flatten]
    simp only [List.map_map, List.getD_cons_zero]
    rw [hmz]
    congr 2
    congr 1
    apply List.map_congr_left
    intro k _
    simp only [Function.comp_apply, Function.comp, Nat.succ_eq_add_one, List.getD_cons_succ]
    have hk : 1 + k = k + 1 := by omega
    rw [hk, List.singleton_append]

/-- Witness for C2: on `a/b/c/Foo.cc` (four segments, final segment with one
`.`) the Mapper yields exactly `a/b/c_api/auto_generated_api/Foo_API`, which
coincides with the spec rule's output. -/
theorem apiname_from_filename_follows_spec_witness :
    apiname_from_filename (str "a/b/c/Foo.cc") = some (mapper_spec (splitOnChar '/' (str "a/b/c/Foo.cc"))) ∧
    apiname_from_filename (str "a/b/c/Foo.cc") = some (str "a/b/c_api/auto_generated_api/Foo_API") :=
  ⟨apiname_from_filename_follows_spec (str "a/b/c/Foo.cc") (by decide) (by decide),
   by decide⟩

theorem apiname_loop_none_iff : ∀ (l : List Str) (i n : Nat), 1 ≤ i → 4 ≤ n →
    i + l.length = n →
    (apiname_loop n i l = none ↔ (l ≠ [] ∧ (splitOnChar '.' (l.getLastD [])).length ≠ 2)) := by
  intro l
  induction l with
  | nil =>
    intro i n _ _ _
    simp [apiname_loop]
  | cons e rest ih =>
    intro i n h1 h4 hlen
    cases rest with
    | nil =>
      have hi : i = n - 1 := by simp only [List.length_cons, List.length_nil] at hlen; omega
      have hn1 : n - 1 ≠ 0 := by omega
      have hn3 : n ≠ 3 := by omega
      have hi2 : i ≠ 2 := by omega
      have hi0 : i ≠ 0 := by omega
      by_cases hsplit : (splitOnChar '.' e).length = 2 <;>
        simp [apiname_loop, apiname_entry, hi0, hi2, hi, hn1, hn3, hsplit, List.getLastD]
    | cons f rest' =>
      have hne : i ≠ n - 1 := by simp only [List.length_cons] at hlen; omega
      have hmid := apiname_entry_mid n i e h1 hne
      have hlast : (e :: f :: rest').getLastD [] = (f :: rest').getLastD [] :=
        getLastD_cons_of_ne_nil e _ (by simp)
      have hrec := ih (i + 1) n (by omega) h4
        (by simp only [List.length_cons] at hlen ⊢; omega)
      rw [hlast, apiname_loop_cons_none_iff n i e _ (f :: rest') hmid, hrec]
      simp

/-- C8: the Mapper aborts fatally exactly when its precondition is violated —
`apiname_from_filename` fails iff the path has three or fewer slash-separated
segments or the final segment does not split on `.` into exactly two parts;
similarly, an invocation with other than exactly five positional values (an
argv of length other than six including the program name), or a run whose
source directory does not exist, aborts fatally. -/
theorem fatal_precondition_aborts :
    (∀ fname : Str, apiname_from_filename fname = none ↔
       ((splitOnChar '/' fname).length ≤ 3 ∨
        (splitOnChar '.' ((splitOnChar '/' fname).getLastD [])).length ≠ 2)) ∧
    (∀ (argv : List Str) (w : World), argv.length ≠ 6 → run_main argv w = none) ∧
    (∀ (cfg : Config) (w : World), w.source_tree = none → run_generate cfg w = none) := by
  refine ⟨fun fname => ?_, fun argv w h => ?_, fun cfg w h => ?_⟩
  · unfold apiname_from_filename
    by_cases h3 : (splitOnChar '/' fname).length > 3
    · rw [if_pos h3]
      cases hes : splitOnChar '/' fname with
      | nil => rw [hes] at h3; simp at h3
      | cons e0 rest =>
        rw [hes] at h3
        have hrestne : rest ≠ [] := by
          intro hr
          rw [hr] at h3
          simp at h3
        have hlast : (e0 :: rest).getLastD [] = rest.getLastD [] :=
          getLastD_cons_of_ne_nil e0 rest hrestne
        have hle : ¬((e0 :: rest).length ≤ 3) := by omega
        have hzero : apiname_entry (e0 :: rest).length 0 e0 = some e0 := by
          simp [apiname_entry]
        have hrec := apiname_loop_none_iff rest 1 (e0 :: rest).length (by omega) h3
          (by simp only [List.length_cons]; omega)
        rw [hlast, apiname_loop_cons_none_iff (e0 :: rest).length 0 e0 e0 rest hzero]
        simp only [Nat.zero_add]
        rw [hrec]
        constructor
        · exact fun hx => Or.inr hx.2
        · intro hx
          rcases hx with hx | hx
          · exact absurd hx (by simp only [List.length_cons] at h3 ⊢; omega)
          · exact ⟨hrestne, hx⟩
    · rw [if_neg h3]
      have hle : (splitOnChar '/' fname).length ≤ 3 := by omega
      simp [hle]
  · unfold run_main
    rw [if_neg h]
  · unfold run_generate
    rw [h]

/-- Witness for C8: `a.cc` has a single segment, so the Mapper aborts; an
empty argv aborts the whole run; a missing source directory aborts the run. -/
theorem fatal_precondition_aborts_witness :
    apiname_from_filename (str "a.cc") = none ∧
    run_main [] { source_tree := none, api_tree := none, tests_tree := none } = none ∧
    run_generate
      { lib_name := str "c", source_dir := str "s", output_file := str "o",
        output_file_api := str "NONE", output_file_tests := str "NONE" }
      { source_tree := none, api_tree := some FSList.nil, tests_tree := none } = none :=
  ⟨(fatal_precondition_aborts.1 (str "a.cc")).mpr (Or.inl (by decide)),
   fatal_precondition_aborts.2.1 [] _ (by decide),
   fatal_precondition_aborts.2.2 _ _ rfl⟩


theorem no_adj_cons_cons (a b x y : Char) (rest : Str) :
    no_adj a b (x :: y :: rest) = if x = a ∧ y = b then false else no_adj a b (y :: rest) := rfl

theorem no_adj_tail (a b x : Char) (l : Str) (h : no_adj a b (x :: l) = true) :
    no_adj a b l = true := by
  cases l with
  | nil => rfl
  | cons y ys =>
    rw [no_adj_cons_cons] at h
    by_cases hxy : x = a ∧ y = b
    · rw [if_pos hxy] at h
      exact absurd h (by simp)
    · rwa [if_neg hxy] at h

theorem no_adj_head (a b x y : Char) (l : Str) (h : no_adj a b (x :: y :: l) = true) :
    ¬(x = a ∧ y = b) := by
  intro hxy
  rw [no_adj_cons_cons, if_pos hxy] at h
  exact absurd h (by simp)

theorem no_adj_cons_of (a b x : Char) (l : Str)
    (hhead : ∀ y, l.head? = some y → ¬(x = a ∧ y = b))
    (htail : no_adj a b l = true) : no_adj a b (x :: l) = true := by
  cases l with
  | nil => rfl
  | cons y ys =>
    rw [no_adj_cons_cons, if_neg (hhead y rfl)]
    exact htail

theorem no_adj_append (a b : Char) : ∀ (xs ys : Str), no_adj a b xs = true →
    no_adj a b ys = true →
    (∀ x y, xs.getLast? = some x → ys.head? = some y → ¬(x = a ∧ y = b)) →
    no_adj a b (xs ++ ys) = true := by
  intro xs
  induction xs with
  | nil =>
    intro ys _ h2 _
    simpa using h2
  | cons x xs' ih =>
    intro ys h1 h2 hj
    rw [List.cons_append]
    apply no_adj_cons_of
    · intro y hy
      cases xs' with
      | nil =>
        simp only [List.nil_append] at hy
        exact hj x y rfl hy
      | cons z xs'' =>
        rw [List.cons_append] at hy
        injection hy with hy
        exact hy ▸ no_adj_head a b x z xs'' h1
    · cases xs' with
      | nil => simpa using h2
      | cons z xs'' =>
        apply ih ys (no_adj_tail a b x _ h1) h2
        intro u v hu hv
        apply hj u v _ hv
        rw [← hu]
        rfl
    
theorem getLast?_cons_cons (x y : Char) (l : Str) :
    (x :: y :: l).getLast? = (y :: l).getLast? := rfl

theorem strip_line_comment_head (rest : Str) (y : Char)
    (h : (strip_line_comment rest).head? = some y) : rest.head? = some y := by
  cases rest with
  | nil => simp [strip_line_comment] at h
  | cons d r =>
    by_cases hd : d = '/' ∧ r.head? = some '/'
    · rw [show strip_line_comment (d :: r) = [] from by simp [strip_line_comment, hd]] at h
      simp at h
    · rw [show strip_line_comment (d :: r) = d :: strip_line_comment r from by
        simp [strip_line_comment, hd]] at h
      simp at h ⊢
      exact h

theorem strip_line_comment_noadj : ∀ l : Str, no_adj '/' '/' (strip_line_comment l) = true := by
  intro l
  induction l with
  | nil => rfl
  | cons c rest ih =>
    by_cases hc : c = '/' ∧ rest.head? = some '/'
    · rw [show strip_line_comment (c :: rest) = [] from by simp [strip_line_comment, hc]]
      rfl
    · rw [show strip_line_comment (c :: rest) = c :: strip_line_comment rest from by
        simp [strip_line_comment, hc]]
      apply no_adj_cons_of
      · intro y hy hab
        apply hc
        refine ⟨hab.1, ?_⟩
        rw [← hab.2]
        exact strip_line_comment_head rest y hy
      · exact ih

theorem strip_line_comment_id (l : Str) (h : no_adj '/' '/' l = true) :
    strip_line_comment l = l := by
  induction l with
  | nil => rfl
  | cons c rest ih =>
    have hc : ¬(c = '/' ∧ rest.head? = some '/') := by
      intro hcc
      cases rest with
      | nil => simp at hcc
      | cons d r =>
        apply no_adj_head '/' '/' c d r h
        refine ⟨hcc.1, ?_⟩
        have hdd : some d = some '/' := hcc.2
        injection hdd
    rw [show strip_line_comment (c :: rest) = c :: strip_line_comment rest from by
      simp [strip_line_comment, hc]]
    rw [ih (no_adj_tail _ _ _ _ h)]

theorem strip_line_comment_subset (l : Str) (c : Char)
    (h : c ∈ strip_line_comment l) : c ∈ l := by
  induction l with
  | nil => simpa [strip_line_comment] using h
  | cons d rest ih =>
    by_cases hd : d = '/' ∧ rest.head? = some '/'
    · rw [show strip_line_comment (d :: rest) = [] from by simp [strip_line_comment, hd]] at h
      simp at h
    · rw [show strip_line_comment (d :: rest) = d :: strip_line_comment rest from by
        simp [strip_line_comment, hd]] at h
      rcases List.mem_cons.mp h with h | h
      · exact h ▸ List.mem_cons_self _ _
      · exact List.mem_cons_of_mem _ (ih h)

theorem fuse_crlf_eq_self (s : Str) (h : ∀ c ∈ s, ¬(c = '\r')) : fuse_crlf s = s := by
  induction s with
  | nil => rfl
  | cons c s' ih =>
    cases s' with
    | nil => rfl
    | cons d rest =>
      have hcd : ¬(c = '\r' ∧ d = '\n') := fun hx => h c (List.mem_cons_self _ _) hx.1
      rw [show fuse_crlf (c :: d :: rest) = c :: fuse_crlf (d :: rest) from by
        simp [fuse_crlf, hcd]]
      rw [ih (fun x hx => h x (List.mem_cons_of_mem _ hx))]

theorem splitBreaks_ne_nil (s : Str) (hs : s ≠ []) : splitBreaks s ≠ [] := by
  cases s with
  | nil => exact absurd rfl hs
  | cons c r =>
    by_cases hc : py_linebreak c = true
    · rw [show splitBreaks (c :: r) = [] :: splitBreaks r from by simp [splitBreaks, hc]]
      simp
    · cases hsp : splitBreaks r with
      | nil => simp [splitBreaks, hc, hsp]
      | cons l ls => simp [splitBreaks, hc, hsp]

theorem splitBreaks_head_cases (s l0 : Str) (ls : List Str)
    (h : splitBreaks s = l0 :: ls) : l0 = [] ∨ l0.head? = s.head? := by
  cases s with
  | nil => simp [splitBreaks] at h
  | cons d r =>
    by_cases hd : py_linebreak d = true
    · rw [show splitBreaks (d :: r) = [] :: splitBreaks r from by simp [splitBreaks, hd]] at h
      injection h with h1 _
      exact Or.inl h1.symm
    · cases hsp : splitBreaks r with
      | nil =>
        rw [show splitBreaks (d :: r) = [[d]] from by simp [splitBreaks, hd, hsp]] at h
        injection h with h1 _
        rw [← h1]
        exact Or.inr rfl
      | cons l' ls' =>
        rw [show splitBreaks (d :: r) = (d :: l') :: ls' from by
          simp [splitBreaks, hd, hsp]] at h
        injection h with h1 _
        rw [← h1]
        exact Or.inr rfl

theorem splitBreaks_noadj (a b : Char) : ∀ s : Str, no_adj a b s = true →
    ∀ l ∈ splitBreaks s, no_adj a b l = true := by
  intro s
  induction s with
  | nil =>
    intro _ l hl
    simp [splitBreaks] at hl
  | cons c s' ih =>
    intro hna l hl
    by_cases hc : py_linebreak c = true
    · rw [show splitBreaks (c :: s') = [] :: splitBreaks s' from by
        simp [splitBreaks, hc]] at hl
      rcases List.mem_cons.mp hl with h | h
      · subst h; rfl
      · exact ih (no_adj_tail _ _ _ _ hna) l h
    · cases hsp : splitBreaks s' with
      | nil =>
        rw [show splitBreaks (c :: s') = [[c]] from by simp [splitBreaks, hc, hsp]] at hl
        simp at hl
        subst hl
        rfl
      | cons l0 ls =>
        rw [show splitBreaks (c :: s') = (c :: l0) :: ls from by
          simp [splitBreaks, hc, hsp]] at hl
        rcases List.mem_cons.mp hl with h | h
        · subst h
          apply no_adj_cons_of
          · intro y hy hab
            rcases splitBreaks_head_cases s' l0 ls hsp with h0 | h0
            · rw [h0] at hy
              simp at hy
            · rw [h0] at hy
              cases s' with
              | nil => simp at hy
              | cons d r =>
                have hdy : d = y := by
                  have hsome : some d = some y := hy
                  injection hsome
                exact no_adj_head a b c d r hna (hdy ▸ ⟨hab.1, hab.2⟩)
          · exact ih (no_adj_tail _ _ _ _ hna) l0 (by rw [hsp]; simp)
        · exact ih (no_adj_tail _ _ _ _ hna) l (by rw [hsp]; exact List.mem_cons_of_mem _ h)

theorem splitBreaks_no_breaks : ∀ s : Str, ∀ l ∈ splitBreaks s, ∀ c ∈ l,
    py_linebreak c = false := by
  intro s
  induction s with
  | nil =>
    intro l hl
    simp [splitBreaks] at hl
  | cons c0 s' ih =>
    intro l hl c hc
    by_cases hc0 : py_linebreak c0 = true
    · rw [show splitBreaks (c0 :: s') = [] :: splitBreaks s' from by
        simp [splitBreaks, hc0]] at hl
      rcases List.mem_cons.mp hl with h | h
      · subst h; simp at hc
      · exact ih l h c hc
    · cases hsp : splitBreaks s' with
      | nil =>
        rw [show splitBreaks (c0 :: s') = [[c0]] from by simp [splitBreaks, hc0, hsp]] at hl
        simp at hl
        subst hl
        simp at hc
        subst hc
        simpa using hc0
      | cons l0 ls =>
        rw [show splitBreaks (c0 :: s') = (c0 :: l0) :: ls from by
          simp [splitBreaks, hc0, hsp]] at hl
        rcases List.mem_cons.mp hl with h | h
        · subst h
          rcases List.mem_cons.mp hc with h1 | h1
          · subst h1
            simpa using hc0
          · exact ih l0 (by rw [hsp]; simp) c h1
        · exact ih l (by rw [hsp]; exact List.mem_cons_of_mem _ h) c hc

theorem splitBreaks_flatten_id : ∀ s : Str,
    (∀ c ∈ s, py_linebreak c = true → c = '\n') → s.getLast? = some '\n' →
    List.flatten ((splitBreaks s).map (fun l => l ++ ['\n'])) = s := by
  intro s
  induction s with
  | nil =>
    intro _ h
    simp at h
  | cons c s' ih =>
    intro honly h
    by_cases hc : py_linebreak c = true
    · have hcn : c = '\n' := honly c (List.mem_cons_self _ _) hc
      subst hcn
      rw [show splitBreaks ('\n' :: s') = [] :: splitBreaks s' from rfl]
      cases hs' : s' with
      | nil => simp [splitBreaks]
      | cons d r =>
        rw [← hs']
        have h' : s'.getLast? = some '\n' := by
          rw [hs'] at h ⊢
          rw [getLast?_cons_cons] at h
          exact h
        simp only [List.map_cons, List.nil_append, List.flatten_cons,
          ih (fun x hx hbx => honly x (List.mem_cons_of_mem _ hx) hbx) h',
          List.singleton_append]
    · have hcn : c ≠ '\n' := fun heq => hc (by rw [heq]; decide)
      have hs'ne : s' ≠ [] := by
        intro he
        rw [he] at h
        have hcc : some c = some '\n' := h
        injection hcc with hcc
        exact hcn hcc
      have h' : s'.getLast? = some '\n' := by
        cases hs' : s' with
        | nil => exact absurd hs' hs'ne
        | cons d r =>
          rw [hs'] at h
          rw [getLast?_cons_cons] at h
          exact h
      cases hsp : splitBreaks s' with
      | nil => exact absurd hsp (splitBreaks_ne_nil s' hs'ne)
      | cons l0 ls =>
        rw [show splitBreaks (c :: s') = (c :: l0) :: ls from by
          simp [splitBreaks, hc, hsp]]
        have hih := ih (fun x hx hbx => honly x (List.mem_cons_of_mem _ hx) hbx) h'
        rw [hsp] at hih
        simp only [List.map_cons, List.flatten_cons] at hih
        simp only [List.map_cons, List.flatten_cons, List.cons_append, List.append_assoc] at hih ⊢
        rw [hih]

theorem flatten_blocks_noadj (a b : Char) (hb : a ≠ '\n') : ∀ blocks : List Str,
    (∀ bl ∈ blocks, no_adj a b bl = true ∧ bl.getLast? = some '\n') →
    no_adj a b (List.flatten blocks) = true := by
  intro blocks
  induction blocks with
  | nil => intro _; rfl
  | cons bl rest ih =>
    intro h
    rw [List.flatten_cons]
    apply no_adj_append
    · exact (h bl (by simp)).1
    · exact ih (fun x hx => h x (List.mem_cons_of_mem _ hx))
    · intro x y hx _ hab
      rw [(h bl (by simp)).2] at hx
      injection hx with hx
      exact hb (hx ▸ hab.1).symm

theorem purge_line_comments_noadj (s : Str) : no_adj '/' '/' (purge_line_comments s) = true := by
  unfold purge_line_comments
  apply flatten_blocks_noadj '/' '/' (by decide)
  intro bl hbl
  rcases List.mem_map.mp hbl with ⟨line, _, rfl⟩
  constructor
  · apply no_adj_append
    · exact strip_line_comment_noadj line
    · rfl
    · intro x y _ hy hab
      have hyn : y = '\n' := by
        have : some y = some '\n' := by rw [← hy]; rfl
        injection this
      rw [hyn] at hab
      exact (by decide : ('\n' : Char) ≠ '/') hab.2
  · exact List.getLast?_concat _

theorem purge_line_comments_id (S : Str) (h : no_adj '/' '/' S = true)
    (honly : ∀ c ∈ S, py_linebreak c = true → c = '\n')
    (hend : S = [] ∨ S.getLast? = some '\n') : purge_line_comments S = S := by
  rcases hend with rfl | hend
  · rfl
  · have hnocr : ∀ c ∈ S, ¬(c = '\r') := by
      intro c hc hcr
      subst hcr
      exact absurd (honly '\r' hc (by decide)) (by decide)
    unfold purge_line_comments py_splitlines
    rw [fuse_crlf_eq_self S hnocr]
    have hmap : (splitBreaks S).map (fun line => strip_line_comment line ++ ['\n'])
        = (splitBreaks S).map (fun line => line ++ ['\n']) := by
      apply List.map_congr_left
      intro l hl
      rw [strip_line_comment_id l (splitBreaks_noadj '/' '/' S h l hl)]
    rw [hmap, splitBreaks_flatten_id S honly hend]

theorem purge_block_comments_head (d : Char) (r : Str) (hd : d ≠ '/') :
    (purge_block_comments (d :: r)).head? = some d := by
  cases r with
  | nil => rfl
  | cons e r' =>
    have hde : ¬(d = '/' ∧ e = '*') := fun h => hd h.1
    rw [show purge_block_comments (d :: e :: r') = d :: purge_block_comments (e :: r') from by
      simp [purge_block_comments, hde]]
    rfl

theorem purge_block_noadj : ∀ N : Nat, ∀ s : Str, s.length ≤ N → no_adj '/' '/' s = true →
    ((no_adj '/' '/' (purge_block_comments s) = true ∧
      no_adj '/' '*' (purge_block_comments s) = true) ∧
     ∀ prev, no_adj '/' '/' (purge_block_skip prev s) = true ∧
       no_adj '/' '*' (purge_block_skip prev s) = true) := by
  intro N
  induction N with
  | zero =>
    intro s hlen _
    have hs : s = [] := List.length_eq_zero.mp (Nat.le_zero.mp hlen)
    subst hs
    exact ⟨⟨rfl, rfl⟩, fun _ => ⟨rfl, rfl⟩⟩
  | succ N ih =>
    intro s hlen hna
    cases s with
    | nil => exact ⟨⟨rfl, rfl⟩, fun _ => ⟨rfl, rfl⟩⟩
    | cons c s' =>
      cases s' with
      | nil =>
        refine ⟨⟨rfl, rfl⟩, fun prev => ?_⟩
        rw [show purge_block_skip prev [c] =
            if prev = '*' ∧ c = '/' then purge_block_comments [] else purge_block_skip c [] from rfl]
        by_cases hp : prev = '*' ∧ c = '/'
        · rw [if_pos hp]
          exact ⟨rfl, rfl⟩
        · rw [if_neg hp]
          exact ⟨rfl, rfl⟩
      | cons d rest =>
        have hlen' : (d :: rest).length ≤ N := by
          simp only [List.length_cons] at hlen ⊢
          omega
        have hlen'' : rest.length ≤ N := by
          simp only [List.length_cons] at hlen ⊢
          omega
        have hna' : no_adj '/' '/' (d :: rest) = true := no_adj_tail _ _ _ _ hna
        have hna'' : no_adj '/' '/' rest = true := no_adj_tail _ _ _ _ hna'
        constructor
        · by_cases hcd : c = '/' ∧ d = '*'
          · rw [show purge_block_comments (c :: d :: rest) = purge_block_skip '*' rest from by
              simp [purge_block_comments, hcd]]
            exact (ih rest hlen'' hna'').2 '*'
          · rw [show purge_block_comments (c :: d :: rest) =
                c :: purge_block_comments (d :: rest) from by
              simp [purge_block_comments, hcd]]
            have hrec := (ih (d :: rest) hlen' hna').1
            constructor
            · apply no_adj_cons_of
              · intro y hy hab
                have hdne : d ≠ '/' := fun hd => no_adj_head '/' '/' c d rest hna ⟨hab.1, hd⟩
                rw [purge_block_comments_head d rest hdne] at hy
                injection hy with hy
                exact hdne (hy.trans hab.2)
              · exact hrec.1
            · apply no_adj_cons_of
              · intro y hy hab
                have hdne : d ≠ '/' := fun hd => no_adj_head '/' '/' c d rest hna ⟨hab.1, hd⟩
                rw [purge_block_comments_head d rest hdne] at hy
                injection hy with hy
                exact hcd ⟨hab.1, hy.trans hab.2⟩
              · exact hrec.2
        · intro prev
          rw [show purge_block_skip prev (c :: d :: rest) =
              if prev = '*' ∧ c = '/' then purge_block_comments (d :: rest)
              else purge_block_skip c (d :: rest) from rfl]
          by_cases hp : prev = '*' ∧ c = '/'
          · rw [if_pos hp]
            exact (ih (d :: rest) hlen' hna').1
          · rw [if_neg hp]
            exact (ih (d :: rest) hlen' hna').2 c

theorem purge_block_comments_id (s : Str) (h : no_adj '/' '*' s = true) :
    purge_block_comments s = s := by
  induction s with
  | nil => rfl
  | cons c s' ih =>
    cases s' with
    | nil => rfl
    | cons d rest =>
      have hcd : ¬(c = '/' ∧ d = '*') := no_adj_head '/' '*' c d rest h
      rw [show purge_block_comments (c :: d :: rest) =
          c :: purge_block_comments (d :: rest) from by
        simp [purge_block_comments, hcd]]
      rw [ih (no_adj_tail _ _ _ _ h)]

theorem purge_comments_noadj (T : Str) :
    no_adj '/' '/' (purge_comments T) = true ∧ no_adj '/' '*' (purge_comments T) = true :=
  (purge_block_noadj (purge_line_comments T).length (purge_line_comments T) le_rfl
    (purge_line_comments_noadj T)).1

theorem purge_block_subset : ∀ N : Nat, ∀ s : Str, s.length ≤ N →
    ((∀ c ∈ purge_block_comments s, c ∈ s) ∧
     (∀ prev, ∀ c ∈ purge_block_skip prev s, c ∈ s)) := by
  intro N
  induction N with
  | zero =>
    intro s hlen
    have hs : s = [] := List.length_eq_zero.mp (Nat.le_zero.mp hlen)
    subst hs
    exact ⟨fun c hc => hc, fun _ c hc => hc⟩
  | succ N ih =>
    intro s hlen
    cases s with
    | nil => exact ⟨fun c hc => hc, fun _ c hc => hc⟩
    | cons c0 s' =>
      cases s' with
      | nil =>
        constructor
        · intro x hx
          exact hx
        · intro prev x hx
          rw [show purge_block_skip prev [c0] =
              if prev = '*' ∧ c0 = '/' then purge_block_comments []
              else purge_block_skip c0 [] from rfl] at hx
          by_cases hp : prev = '*' ∧ c0 = '/'
          · rw [if_pos hp] at hx
            rw [show purge_block_comments [] = [] from rfl] at hx
            simp at hx
          · rw [if_neg hp] at hx
            rw [show purge_block_skip c0 [] = [] from rfl] at hx
            simp at hx
      | cons d rest =>
        have hlen' : (d :: rest).length ≤ N := by
          simp only [List.length_cons] at hlen ⊢
          omega
        have hlen'' : rest.length ≤ N := by
          simp only [List.length_cons] at hlen ⊢
          omega
        constructor
        · intro x hx
          by_cases hcd : c0 = '/' ∧ d = '*'
          · rw [show purge_block_comments (c0 :: d :: rest) = purge_block_skip '*' rest from by
              simp [purge_block_comments, hcd]] at hx
            exact List.mem_cons_of_mem _ (List.mem_cons_of_mem _ ((ih rest hlen'').2 '*' x hx))
          · rw [show purge_block_comments (c0 :: d :: rest) =
                c0 :: purge_block_comments (d :: rest) from by
              simp [purge_block_comments, hcd]] at hx
            rcases List.mem_cons.mp hx with hx | hx
            · exact hx ▸ List.mem_cons_self _ _
            · exact List.mem_cons_of_mem _ ((ih (d :: rest) hlen').1 x hx)
        · intro prev x hx
          rw [show purge_block_skip prev (c0 :: d :: rest) =
              if prev = '*' ∧ c0 = '/' then purge_block_comments (d :: rest)
              else purge_block_skip c0 (d :: rest) from rfl] at hx
          by_cases hp : prev = '*' ∧ c0 = '/'
          · rw [if_pos hp] at hx
            exact List.mem_cons_of_mem _ ((ih (d :: rest) hlen').1 x hx)
          · rw [if_neg hp] at hx
            exact List.mem_cons_of_mem _ ((ih (d :: rest) hlen').2 c0 x hx)

theorem purge_comments_only_nl (T : Str) :
    ∀ c ∈ purge_comments T, py_linebreak c = true → c = '\n' := by
  intro c hc hbreak
  have hc1 : c ∈ purge_line_comments T :=
    (purge_block_subset (purge_line_comments T).length (purge_line_comments T) le_rfl).1 c hc
  unfold purge_line_comments at hc1
  rcases List.mem_flatten.mp hc1 with ⟨bl, hbl, hcbl⟩
  rcases List.mem_map.mp hbl with ⟨line, hline, rfl⟩
  rcases List.mem_append.mp hcbl with hcl | hcl
  · have hmem : c ∈ line := strip_line_comment_subset line c hcl
    have hline' : line ∈ splitBreaks (fuse_crlf T) := hline
    have hoff := splitBreaks_no_breaks (fuse_crlf T) line hline' c hmem
    rw [hoff] at hbreak
    exact absurd hbreak (by decide)
  · simpa using hcl

/-- C4 counterexample: the Comment Stripper is not idempotent.  On `a/*` the
unterminated block comment swallows the re-inserted trailing newline, so one
pass yields `a`, while a second pass re-appends a newline, yielding `a\n`. -/
theorem purge_comments_not_idempotent :
    purge_comments (purge_comments (str "a/*")) ≠ purge_comments (str "a/*") := by decide

/-- C4 as amended: the Comment Stripper is idempotent on every text whose
single-pass output is empty or ends with a newline — equivalently, stripping
twice equals stripping once except when an unterminated block comment has
consumed the trailing newline of the single-pass output (in which case the
second pass re-appends a final newline). -/
theorem purge_comments_idempotent_of_newline (T : Str)
    (h : purge_comments T = [] ∨ (purge_comments T).getLast? = some '\n') :
    purge_comments (purge_comments T) = purge_comments T := by
  have hinv := purge_comments_noadj T
  have hplc : purge_line_comments (purge_comments T) = purge_comments T :=
    purge_line_comments_id _ hinv.1 (purge_comments_only_nl T) h
  show purge_block_comments (purge_line_comments (purge_comments T)) = purge_comments T
  rw [hplc]
  exact purge_block_comments_id _ hinv.2

/-- Witness for C4's amended statement at `a//b\n`: the single-pass output
`a\n` ends with a newline, and a second pass leaves it unchanged. -/
theorem purge_comments_idempotent_of_newline_witness :
    purge_comments (purge_comments (str "a//b\n")) = purge_comments (str "a//b\n") :=
  purge_comments_idempotent_of_newline (str "a//b\n") (Or.inr (by decide))

/-- C5 counterexample: two texts with no comment markers that the Comment
Stripper still changes.  `x` (no trailing newline) is returned as `x\n`: the
line pass re-appends a newline to the final unterminated line.  And `a\rb\n`
(marker-free and newline-terminated, but with a carriage-return line break) is
returned as `a\nb\n`: `splitlines` splits at the `\r` and the line pass
rejoins with `\n`. -/
theorem purge_comments_changes_markerless_text :
    ((no_adj '/' '/' (str "x") = true ∧ no_adj '/' '*' (str "x") = true ∧
      no_adj '*' '/' (str "x") = true) ∧
     purge_comments (str "x") ≠ str "x") ∧
    ((no_adj '/' '/' (str "a\rb\n") = true ∧ no_adj '/' '*' (str "a\rb\n") = true ∧
      no_adj '*' '/' (str "a\rb\n") = true) ∧
     (str "a\rb\n").getLast? = some '\n' ∧
     purge_comments (str "a\rb\n") = str "a\nb\n" ∧
     purge_comments (str "a\rb\n") ≠ str "a\rb\n") := by decide

/-- C5 as amended: for every source text containing no comment marker (no
`//`, `/*` or `*/` substring), whose only line-break characters (in Python's
`splitlines` sense) are `\n`, and that is empty or ends with a newline, the
Comment Stripper returns the text unchanged, character for character.  A
marker-free text not of this shape is still rewritten: a missing final newline
is appended, and any other line-break character is replaced by `\n`. -/
theorem purge_comments_id_of_no_markers (T : Str)
    (h1 : no_adj '/' '/' T = true) (h2 : no_adj '/' '*' T = true)
    (h3 : no_adj '*' '/' T = true)
    (honly : ∀ c ∈ T, py_linebreak c = true → c = '\n')
    (hend : T = [] ∨ T.getLast? = some '\n') :
    purge_comments T = T := by
  show purge_block_comments (purge_line_comments T) = T
  rw [purge_line_comments_id T h1 honly hend]
  exact purge_block_comments_id T h2

/-- Witness for C5's amended statement: `int x;\n` has no comment markers, its
only line break is the final `\n`, and the Comment Stripper returns it
unchanged. -/
theorem purge_comments_id_of_no_markers_witness :
    purge_comments (str "int x;\n") = str "int x;\n" :=
  purge_comments_id_of_no_markers (str "int x;\n") (by decide) (by decide) (by decide)
    (by decide) (Or.inr (by decide))

end GenerateCmakeBuild
